import Mathlib

/- Shallow embedding of the distance-bucketing core of `app.py` in the
   heatmap_streamlit repository.  Python floats on the bucketing path are
   modelled by exact rationals together with explicit NaN / infinity
   markers for the only operations the code performs on them (ordering
   comparisons, which are false on NaN); the trigonometric haversine path
   is modelled over the real numbers. -/

/- Upper bound of a distance bin: a finite kilometre value, or the
   `float("inf")` used for the last bin. -/
inductive HiBound where
  | fin (q : ℚ)
  | inf
deriving DecidableEq

/- A bin `(low_km, high_km)` as built by `make_bins_from_radii`. -/
abbrev Bin := ℚ × HiBound

/- A float distance value as consumed by `bucketize_distances`: either NaN
   or a finite rational number of kilometres. -/
inductive DVal where
  | nan
  | val (q : ℚ)
deriving DecidableEq

/- The accumulation loop of `make_bins_from_radii`: `prev` starts at `0.0`,
   each radius `r` (already in km) contributes the bin `(prev, r)`, and a
   final `(prev, inf)` bin is appended. -/
def binsAux (prev : ℚ) : List ℚ → List Bin
  | [] => [(prev, HiBound.inf)]
  | r :: rs => (prev, HiBound.fin r) :: binsAux r rs

/- `make_bins_from_radii` (app.py lines 155-168): sort the radii in metres,
   convert each to kilometres by dividing by 1000, then chain half-open
   bins ending with an unbounded one.  The source sorts but does not
   deduplicate. -/
def make_bins_from_radii (radii_meters : List ℤ) : List Bin :=
  binsAux 0 ((radii_meters.insertionSort (· ≤ ·)).map (fun r : ℤ => (r : ℚ) / 1000))

/- The per-bin mask `(dist_km >= low) & (dist_km < high)` of
   `bucketize_distances` (lines 170-179), evaluated at one distance value.
   Both comparisons are false on NaN, and every finite value is below
   `float("inf")`. -/
def bandMask (b : Bin) (d : DVal) : Bool :=
  match d with
  | DVal.nan => false
  | DVal.val q =>
    decide (b.1 ≤ q) && (match b.2 with
      | HiBound.inf => true
      | HiBound.fin h => decide (q < h))

/- Membership of a finite distance in a bin, as a proposition. -/
def inBand (b : Bin) (q : ℚ) : Prop := bandMask b (DVal.val q) = true

instance (b : Bin) (q : ℚ) : Decidable (inBand b q) := by
  unfold inBand; infer_instance

/- Per-element view of the mask loop of `bucketize_distances`: bin indices
   are tried in order starting from the sentinel `-1`, a later matching
   bin overwriting an earlier one (the numpy masks write independently,
   so per element the last matching bin wins). -/
def bucketAux (d : DVal) : ℤ → ℤ → List Bin → ℤ
  | _, acc, [] => acc
  | i, acc, b :: rest => bucketAux d (i + 1) (if bandMask b d then i else acc) rest

/- The bucket index assigned to one distance value. -/
def bucketize_one (bins : List Bin) (d : DVal) : ℤ := bucketAux d 0 (-1) bins

/- `bucketize_distances` (lines 170-179) over a whole distance array. -/
def bucketize_distances (dist_km : List DVal) (bins : List Bin) : List ℤ :=
  dist_km.map (bucketize_one bins)

/- Python `round` on a finite value: nearest integer, ties to even. -/
def pyRound (q : ℚ) : ℤ :=
  if q - ⌊q⌋ < 1 / 2 then ⌊q⌋
  else if 1 / 2 < q - ⌊q⌋ then ⌊q⌋ + 1
  else if ⌊q⌋ % 2 = 0 then ⌊q⌋ else ⌊q⌋ + 1

/- Outcome of `float(p)` on one stripped token of the radii input string:
   the empty token (skipped by the `p == ""` test), a token on which
   `float` raises, NaN (`nan >= 0` is false), negative infinity
   (`-inf >= 0` is false), positive infinity (`int(round(inf))` raises
   OverflowError, swallowed by the bare except), or a finite value. -/
inductive Token where
  | empty
  | invalid
  | nan
  | ninf
  | pinf
  | num (q : ℚ)
deriving DecidableEq

/- The token loop of `parse_radii_input` (app.py lines 104-129): keep a
   finite token whose value is `>= 0`, as `int(round(val))`; every other
   token is skipped. -/
def validRadii : List Token → List ℤ
  | [] => []
  | Token.num q :: ts => if 0 ≤ q then pyRound q :: validRadii ts else validRadii ts
  | _ :: ts => validRadii ts

/- `parse_radii_input`: `radii = sorted(set(radii))`, and when nothing
   survived the loop the raised ValueError is caught and the default
   radius set is returned. -/
def parse_radii_input (toks : List Token) : List ℤ :=
  let radii := ((validRadii toks).dedup).insertionSort (· ≤ ·)
  if radii = [] then [10000, 20000, 30000] else radii

/- Python `f"..."` two-decimal formatting of a finite value: round to
   hundredths (ties to even) and print with exactly two decimals. -/
def fmt2 (q : ℚ) : String :=
  let c := pyRound (q * 100)
  let n := c.natAbs
  (if c < 0 then "-" else "") ++ toString (n / 100) ++ "." ++
    (if n % 100 < 10 then "0" ++ toString (n % 100) else toString (n % 100))

/- `bucket_labels_from_bins` (lines 204-212): one label per bin, built in
   bin order; an en-dash separates the two bounds of a finite bin, and the
   unbounded bin is rendered with a leading ">". -/
def bucket_labels_from_bins (bins : List Bin) : List String :=
  bins.foldl (fun labels b =>
    labels ++ [match b.2 with
      | HiBound.inf => ">" ++ fmt2 b.1 ++ " km"
      | HiBound.fin h => fmt2 b.1 ++ "–" ++ fmt2 h ++ " km"]) []

/- The tally loop of `add_colored_points_layer` (lines 379-385):
   `bucket_counts[i] = np.sum(bucket_idxs == i)` for every `i` in
   `range(len(bucket_labels))`, keys in increasing order. -/
def bucket_counts (nBands : ℕ) (bucket_idxs : List ℤ) : List (ℕ × ℕ) :=
  (List.range nBands).map (fun i => (i, bucket_idxs.count (i : ℤ)))

/- `np.radians`: degrees to radians. -/
noncomputable def radians (x : ℝ) : ℝ := x * (Real.pi / 180)

/- The haversine `a` term of `haversine_vectorized` (app.py lines
   133-151). -/
noncomputable def hav_a (lat1 lon1 lat2 lon2 : ℝ) : ℝ :=
  Real.sin ((radians lat2 - radians lat1) / 2) ^ 2 +
    Real.cos (radians lat1) * Real.cos (radians lat2) *
      Real.sin ((radians lon2 - radians lon1) / 2) ^ 2

/- One component of `haversine_vectorized`:
   `R * (2 * arcsin(min(1, sqrt(a))))` with `R = 6371.0088` km. -/
noncomputable def haversine (lat1 lon1 lat2 lon2 : ℝ) : ℝ :=
  6371.0088 * (2 * Real.arcsin (min 1 (Real.sqrt (hav_a lat1 lon1 lat2 lon2))))

/- `haversine_vectorized` over an array of points: numpy broadcasting over
   the point arrays becomes a map over a list of coordinate pairs. -/
noncomputable def haversine_vectorized (lat1 lon1 : ℝ) (pts : List (ℝ × ℝ)) : List ℝ :=
  pts.map (fun p => haversine lat1 lon1 p.1 p.2)

/- Spec-side band construction, following the spec words "Convert each
   radius to kilometers (divide by 1000), sort ascending, deduplicate"
   before chaining the bins; compared against `make_bins_from_radii`. -/
def build_bands_spec (radii_meters : List ℤ) : List Bin :=
  binsAux 0 (((radii_meters.map (fun r : ℤ => (r : ℚ) / 1000)).dedup).insertionSort (· ≤ ·))

/- Spec-side label of one band: ">LOW km" for the unbounded band and
   "LOW–HIGH km" (two decimals, en-dash) otherwise. -/
def label_of_band_spec (b : Bin) : String :=
  match b.2 with
  | HiBound.inf => ">" ++ fmt2 b.1 ++ " km"
  | HiBound.fin h => fmt2 b.1 ++ "–" ++ fmt2 h ++ " km"

/- The chain structure claimed for a bin list: the first low bound equals
   `lo`, each bin's low bound equals the previous bin's (finite) high
   bound, and exactly the last bin is unbounded. -/
def Chained (lo : ℚ) : List Bin → Prop
  | [] => False
  | [(l, HiBound.inf)] => l = lo
  | (l, HiBound.fin h) :: rest => l = lo ∧ Chained h rest
  | (_, HiBound.inf) :: _ :: _ => False

/- ----- basic facts about bins and masks ----- -/

lemma inBand_fin {l h q : ℚ} : inBand (l, HiBound.fin h) q ↔ l ≤ q ∧ q < h := by
  simp [inBand, bandMask]

lemma inBand_inf {l q : ℚ} : inBand (l, HiBound.inf) q ↔ l ≤ q := by
  simp [inBand, bandMask]

lemma inBand_low_le {b : Bin} {q : ℚ} (h : inBand b q) : b.1 ≤ q := by
  rcases b with ⟨l, hi⟩
  cases hi with
  | fin h' => exact (inBand_fin.mp h).1
  | inf => exact inBand_inf.mp h

lemma bandMask_val_eq_false {b : Bin} {q : ℚ} :
    bandMask b (DVal.val q) = false ↔ ¬ inBand b q := by
  unfold inBand
  cases bandMask b (DVal.val q) <;> simp

lemma binsAux_length (rs : List ℚ) (prev : ℚ) :
    (binsAux prev rs).length = rs.length + 1 := by
  induction rs generalizing prev with
  | nil => rfl
  | cons r rs ih => simp [binsAux, ih]

lemma binsAux_map_fst (rs : List ℚ) (prev : ℚ) :
    (binsAux prev rs).map Prod.fst = prev :: rs := by
  induction rs generalizing prev with
  | nil => rfl
  | cons r rs ih => simp [binsAux, ih]

lemma chained_binsAux (rs : List ℚ) (prev : ℚ) : Chained prev (binsAux prev rs) := by
  induction rs generalizing prev with
  | nil => simp [binsAux, Chained]
  | cons r rs ih => simpa [binsAux, Chained] using ih r

/- Every distance at or above the starting bound matches exactly one bin
   of the chain, provided the radii list fed to the chain is sorted. -/
lemma binsAux_unique_match (rs : List ℚ) (prev : ℚ) (hsort : rs.Sorted (· ≤ ·))
    (q : ℚ) (hq : prev ≤ q) :
    ∃ (i : ℕ) (hi : i < (binsAux prev rs).length),
      inBand ((binsAux prev rs).get ⟨i, hi⟩) q ∧
      ∀ (j : ℕ) (hj : j < (binsAux prev rs).length),
        inBand ((binsAux prev rs).get ⟨j, hj⟩) q → j = i := by
  induction rs generalizing prev with
  | nil =>
    refine ⟨0, by simp [binsAux], ?_, ?_⟩
    · simpa [binsAux, inBand_inf] using hq
    · intro j hj _
      simp [binsAux] at hj
      omega
  | cons r rs ih =>
    have hr : ∀ x ∈ rs, r ≤ x := (List.sorted_cons.mp hsort).1
    have hsort' : rs.Sorted (· ≤ ·) := (List.sorted_cons.mp hsort).2
    by_cases hlt : q < r
    · refine ⟨0, by simp [binsAux], ?_, ?_⟩
      · simpa [binsAux, inBand_fin] using ⟨hq, hlt⟩
      · intro j hj hmem
        cases j with
        | zero => rfl
        | succ j =>
          exfalso
          have hj' : j < (binsAux r rs).length := by simpa [binsAux] using hj
          have hget : (binsAux prev (r :: rs)).get ⟨j + 1, hj⟩ = (binsAux r rs).get ⟨j, hj'⟩ := by
            simp [binsAux]
          have hlow : ((binsAux r rs).get ⟨j, hj'⟩).1 ≤ q := inBand_low_le (hget ▸ hmem)
          have hmemlow : ((binsAux r rs).get ⟨j, hj'⟩).1 ∈ (binsAux r rs).map Prod.fst :=
            List.mem_map_of_mem Prod.fst (List.get_mem _ _ _)
          rw [binsAux_map_fst] at hmemlow
          rcases List.mem_cons.mp hmemlow with h0 | h0
          · rw [h0] at hlow
            exact absurd hlow (not_le.mpr hlt)
          · exact absurd (le_trans (hr _ h0) hlow) (not_le.mpr hlt)
    · push_neg at hlt
      obtain ⟨i, hi, hmem, huniq⟩ := ih r hsort' hlt
      refine ⟨i + 1, by simpa [binsAux, Nat.succ_lt_succ_iff] using hi, ?_, ?_⟩
      · simpa [binsAux] using hmem
      · intro j hj hmem'
        cases j with
        | zero =>
          exfalso
          have h0 : inBand (prev, HiBound.fin r) q := by simpa [binsAux] using hmem'
          exact absurd (inBand_fin.mp h0).2 (not_lt.mpr hlt)
        | succ j =>
          have hj' : j < (binsAux r rs).length := by simpa [binsAux] using hj
          have := huniq j hj' (by simpa [binsAux] using hmem')
          omega

/- ----- the mask loop of bucketize_distances ----- -/

lemma bucketAux_no_match (bins : List Bin) (d : DVal) :
    ∀ (i acc : ℤ), (∀ b ∈ bins, bandMask b d = false) → bucketAux d i acc bins = acc := by
  induction bins with
  | nil => intro i acc _; rfl
  | cons b rest ih =>
    intro i acc h
    have hb : bandMask b d = false := h b (List.mem_cons_self _ _)
    show bucketAux d (i + 1) (if bandMask b d then i else acc) rest = acc
    rw [hb, if_neg Bool.false_ne_true]
    exact ih _ _ (fun x hx => h x (List.mem_cons_of_mem _ hx))

lemma bucketAux_eq_of_unique (bins : List Bin) (d : DVal) :
    ∀ (i0 acc : ℤ) (i : ℕ) (hi : i < bins.length),
      bandMask (bins.get ⟨i, hi⟩) d = true →
      (∀ (j : ℕ) (hj : j < bins.length), bandMask (bins.get ⟨j, hj⟩) d = true → j = i) →
      bucketAux d i0 acc bins = i0 + i := by
  induction bins with
  | nil =>
    intro _ _ i hi
    simp at hi
  | cons b rest ih =>
    intro i0 acc i hi hmask huniq
    cases i with
    | zero =>
      have hb : bandMask b d = true := by simpa using hmask
      have hrest : ∀ x ∈ rest, bandMask x d = false := by
        intro x hx
        by_contra hxm
        rw [Bool.not_eq_false] at hxm
        obtain ⟨n, hn⟩ := List.mem_iff_get.mp hx
        have := huniq (n.1 + 1) (Nat.succ_lt_succ n.2) (by simpa [← hn] using hxm)
        omega
      show bucketAux d (i0 + 1) (if bandMask b d then i0 else acc) rest = i0 + (0 : ℕ)
      rw [hb, if_pos rfl, bucketAux_no_match rest d _ _ hrest]
      simp
    | succ i =>
      have hb : bandMask b d = false := by
        by_contra hbm
        rw [Bool.not_eq_false] at hbm
        have := huniq 0 (Nat.succ_pos _) (by simpa using hbm)
        omega
      have hi' : i < rest.length := Nat.lt_of_succ_lt_succ hi
      have hmask' : bandMask (rest.get ⟨i, hi'⟩) d = true := by simpa using hmask
      have huniq' : ∀ (j : ℕ) (hj : j < rest.length),
          bandMask (rest.get ⟨j, hj⟩) d = true → j = i := by
        intro j hj hjm
        have := huniq (j + 1) (Nat.succ_lt_succ hj) (by simpa using hjm)
        omega
      show bucketAux d (i0 + 1) (if bandMask b d then i0 else acc) rest = i0 + ((i : ℤ) + 1)
      rw [hb, if_neg Bool.false_ne_true, ih (i0 + 1) acc i hi' hmask' huniq']
      ring

lemma bucketize_one_eq_of_unique (bins : List Bin) (d : DVal) (i : ℕ) (hi : i < bins.length)
    (hmask : bandMask (bins.get ⟨i, hi⟩) d = true)
    (huniq : ∀ (j : ℕ) (hj : j < bins.length), bandMask (bins.get ⟨j, hj⟩) d = true → j = i) :
    bucketize_one bins d = (i : ℤ) := by
  rw [bucketize_one, bucketAux_eq_of_unique bins d 0 (-1) i hi hmask huniq]
  ring

lemma bucketize_one_nan (bins : List Bin) : bucketize_one bins DVal.nan = -1 :=
  bucketAux_no_match bins DVal.nan 0 (-1) (fun _ _ => rfl)

/- ----- facts about make_bins_from_radii ----- -/

lemma kms_sorted (radii : List ℤ) :
    ((radii.insertionSort (· ≤ ·)).map (fun r : ℤ => (r : ℚ) / 1000)).Sorted (· ≤ ·) := by
  rw [List.Sorted, List.pairwise_map]
  refine List.Pairwise.imp ?_ (List.sorted_insertionSort _ radii)
  intro a b hab
  exact (div_le_div_iff_of_pos_right (by norm_num)).mpr (Int.cast_le.mpr hab)

lemma make_bins_low_nonneg (radii : List ℤ) (hpos : ∀ r ∈ radii, 0 ≤ r) :
    ∀ b ∈ make_bins_from_radii radii, 0 ≤ b.1 := by
  intro b hb
  have hm : b.1 ∈ (make_bins_from_radii radii).map Prod.fst := List.mem_map_of_mem _ hb
  rw [make_bins_from_radii, binsAux_map_fst] at hm
  rcases List.mem_cons.mp hm with h0 | h0
  · exact h0.ge
  · obtain ⟨r, hr, hrq⟩ := List.mem_map.mp h0
    rw [List.mem_insertionSort] at hr
    rw [← hrq]
    exact div_nonneg (by exact_mod_cast hpos r hr) (by norm_num)

lemma make_bins_unique_match (radii : List ℤ) (q : ℚ) (hq : 0 ≤ q) :
    ∃ (i : ℕ) (hi : i < (make_bins_from_radii radii).length),
      inBand ((make_bins_from_radii radii).get ⟨i, hi⟩) q ∧
      ∀ (j : ℕ) (hj : j < (make_bins_from_radii radii).length),
        inBand ((make_bins_from_radii radii).get ⟨j, hj⟩) q → j = i :=
  binsAux_unique_match _ 0 (kms_sorted radii) q hq

lemma bucketize_one_neg (radii : List ℤ) (hpos : ∀ r ∈ radii, 0 ≤ r) (q : ℚ) (hq : q < 0) :
    bucketize_one (make_bins_from_radii radii) (DVal.val q) = -1 := by
  rw [bucketize_one]
  apply bucketAux_no_match
  intro b hb
  rw [bandMask_val_eq_false]
  intro hmem
  exact absurd (le_trans (make_bins_low_nonneg radii hpos b hb) (inBand_low_le hmem))
    (not_le.mpr hq)

/- Concrete evaluation of the default bins. -/
lemma bins_default_eval :
    make_bins_from_radii [10000, 20000, 30000] =
      [((0 : ℚ), HiBound.fin 10), (10, HiBound.fin 20), (20, HiBound.fin 30),
        (30, HiBound.inf)] := by
  have hsort : ([10000, 20000, 30000] : List ℤ).insertionSort (· ≤ ·) =
      [10000, 20000, 30000] := by
    norm_num [List.insertionSort, List.orderedInsert]
  rw [make_bins_from_radii, hsort]
  norm_num [binsAux]

/- ----- C1 ----- -/

/-- C1, counterexample: contrary to the claim, `make_bins_from_radii` does
not deduplicate.  On the radius list [10000, 10000] it produces three bins
(including the degenerate [10,10)), while the spec-side construction that
converts, sorts and deduplicates produces two. -/
theorem make_bins_dedup_counterexample :
    make_bins_from_radii [10000, 10000] ≠ build_bands_spec [10000, 10000] ∧
    (make_bins_from_radii [10000, 10000]).length = 3 ∧
    (build_bands_spec [10000, 10000]).length = 2 := by
  have h1 : (make_bins_from_radii [10000, 10000]).length = 3 := by
    rw [make_bins_from_radii, binsAux_length]
    rfl
  have hmap : ([10000, 10000] : List ℤ).map (fun r : ℤ => (r : ℚ) / 1000) = [10, 10] := by
    norm_num
  have hdedup : ([10, 10] : List ℚ).dedup = [10] := by
    rw [List.dedup_cons_of_mem (by simp)]
    simp
  have h2 : (build_bands_spec [10000, 10000]).length = 2 := by
    rw [build_bands_spec, hmap, hdedup, binsAux_length]
    rfl
  refine ⟨?_, h1, h2⟩
  intro h
  have := congrArg List.length h
  rw [h1, h2] at this
  exact absurd this (by decide)

/-- C1, amended: for every non-empty radius list the bins produced by
`make_bins_from_radii` (convert to km and sort, without deduplication)
form a chain — bin 0's low bound is 0, each bin's low bound equals the
previous bin's high bound, exactly the last bin is unbounded — and every
non-negative distance lies in exactly one bin. -/
theorem make_bins_chain_partition (radii : List ℤ) (_hne : radii ≠ []) :
    Chained 0 (make_bins_from_radii radii) ∧
    ∀ q : ℚ, 0 ≤ q →
      ∃ (i : ℕ) (hi : i < (make_bins_from_radii radii).length),
        inBand ((make_bins_from_radii radii).get ⟨i, hi⟩) q ∧
        ∀ (j : ℕ) (hj : j < (make_bins_from_radii radii).length),
          inBand ((make_bins_from_radii radii).get ⟨j, hj⟩) q → j = i := by
  refine ⟨chained_binsAux _ 0, ?_⟩
  intro q hq
  exact make_bins_unique_match radii q hq

/-- Witness for `make_bins_chain_partition` at radii [10000, 10000] and
distance 5 km. -/
theorem make_bins_chain_partition_witness :
    Chained 0 (make_bins_from_radii [10000, 10000]) ∧
    (∃ (i : ℕ) (hi : i < (make_bins_from_radii [10000, 10000]).length),
       inBand ((make_bins_from_radii [10000, 10000]).get ⟨i, hi⟩) 5 ∧
       ∀ (j : ℕ) (hj : j < (make_bins_from_radii [10000, 10000]).length),
         inBand ((make_bins_from_radii [10000, 10000]).get ⟨j, hj⟩) 5 → j = i) :=
  ⟨(make_bins_chain_partition [10000, 10000] (by decide)).1,
   (make_bins_chain_partition [10000, 10000] (by decide)).2 5 (by norm_num)⟩

/- ----- C2 ----- -/

/-- C2: over bins built from a non-empty, non-negative radius list,
every non-negative finite distance receives exactly one bin index (the
one whose bin contains it in the half-open sense), every negative
distance and NaN receives the sentinel -1, and `bucketize_distances`
is total (length-preserving, never raising). -/
theorem bucketize_distances_total (radii : List ℤ) (_hne : radii ≠ [])
    (hpos : ∀ r ∈ radii, 0 ≤ r) :
    (∀ q : ℚ, 0 ≤ q →
       ∃ (i : ℕ) (hi : i < (make_bins_from_radii radii).length),
         bucketize_one (make_bins_from_radii radii) (DVal.val q) = (i : ℤ) ∧
         inBand ((make_bins_from_radii radii).get ⟨i, hi⟩) q ∧
         ∀ (j : ℕ) (hj : j < (make_bins_from_radii radii).length),
           inBand ((make_bins_from_radii radii).get ⟨j, hj⟩) q → j = i) ∧
    (∀ q : ℚ, q < 0 → bucketize_one (make_bins_from_radii radii) (DVal.val q) = -1) ∧
    bucketize_one (make_bins_from_radii radii) DVal.nan = -1 ∧
    ∀ ds : List DVal,
      (bucketize_distances ds (make_bins_from_radii radii)).length = ds.length := by
  refine ⟨?_, fun q hq => bucketize_one_neg radii hpos q hq, bucketize_one_nan _,
    fun ds => by simp [bucketize_distances]⟩
  intro q hq
  obtain ⟨i, hi, hmem, huniq⟩ := make_bins_unique_match radii q hq
  exact ⟨i, hi, bucketize_one_eq_of_unique _ _ i hi hmem huniq, hmem, huniq⟩

/-- Witness for `bucketize_distances_total` at the default radii, with
distances 15 km, -3 km and NaN. -/
theorem bucketize_distances_total_witness :
    (∃ (i : ℕ) (hi : i < (make_bins_from_radii [10000, 20000, 30000]).length),
       bucketize_one (make_bins_from_radii [10000, 20000, 30000]) (DVal.val 15) = (i : ℤ) ∧
       inBand ((make_bins_from_radii [10000, 20000, 30000]).get ⟨i, hi⟩) 15 ∧
       ∀ (j : ℕ) (hj : j < (make_bins_from_radii [10000, 20000, 30000]).length),
         inBand ((make_bins_from_radii [10000, 20000, 30000]).get ⟨j, hj⟩) 15 → j = i) ∧
    bucketize_one (make_bins_from_radii [10000, 20000, 30000]) (DVal.val (-3)) = -1 ∧
    bucketize_one (make_bins_from_radii [10000, 20000, 30000]) DVal.nan = -1 :=
  ⟨(bucketize_distances_total [10000, 20000, 30000] (by decide) (by decide)).1 15
     (by norm_num),
   (bucketize_distances_total [10000, 20000, 30000] (by decide) (by decide)).2.1 (-3)
     (by norm_num),
   (bucketize_distances_total [10000, 20000, 30000] (by decide) (by decide)).2.2.1⟩

/- ----- C3 ----- -/

/-- C3: a distance lying exactly on a bin's low bound is assigned to that
bin (lower-inclusive / upper-exclusive convention), for any bins built
from non-negative radii. -/
theorem bucketize_boundary_tiebreak (radii : List ℤ) (hpos : ∀ r ∈ radii, 0 ≤ r)
    (j : ℕ) (b : Bin) (hb : (make_bins_from_radii radii).get? j = some b) (q : ℚ)
    (hlow : b.1 = q) (hmem : inBand b q) :
    bucketize_one (make_bins_from_radii radii) (DVal.val q) = (j : ℤ) := by
  rw [List.get?_eq_some] at hb
  obtain ⟨hj, hget⟩ := hb
  have hq : 0 ≤ q :=
    hlow ▸ hget ▸ make_bins_low_nonneg radii hpos _ (List.get_mem _ _ _)
  obtain ⟨i, hi, hmem', huniq⟩ := make_bins_unique_match radii q hq
  rw [huniq j hj (hget ▸ hmem)]
  exact bucketize_one_eq_of_unique _ _ i hi hmem' huniq

/-- Witness for `bucketize_boundary_tiebreak`: with radii
{10000, 20000, 30000} a distance of exactly 10.0 km lands in bin 1
([10,20) km), not bin 0. -/
theorem bucketize_boundary_tiebreak_witness :
    bucketize_one (make_bins_from_radii [10000, 20000, 30000]) (DVal.val 10) = 1 ∧
    bucketize_one (make_bins_from_radii [10000, 20000, 30000]) (DVal.val 10) ≠ 0 := by
  have h := bucketize_boundary_tiebreak [10000, 20000, 30000] (by decide) 1
    ((10 : ℚ), HiBound.fin 20) (by rw [bins_default_eval]; rfl) 10 rfl
    (by norm_num [inBand, bandMask])
  exact ⟨h, by rw [h]; decide⟩

/- ----- C4 ----- -/

lemma sum_map_add_nat {α : Type} (l : List α) (f g : α → ℕ) :
    (l.map (fun x => f x + g x)).sum = (l.map f).sum + (l.map g).sum := by
  induction l with
  | nil => rfl
  | cons a l ih =>
    simp only [List.map_cons, List.sum_cons, ih]
    ring

lemma sum_indicator (n : ℕ) (b : ℤ) :
    ((List.range n).map (fun i : ℕ => if b = (i : ℤ) then 1 else 0)).sum =
      (if 0 ≤ b ∧ b < (n : ℤ) then 1 else 0) := by
  induction n with
  | zero =>
    simp only [List.range_zero, List.map_nil, List.sum_nil]
    split_ifs with hc
    · omega
    · rfl
  | succ n ih =>
    rw [List.range_succ, List.map_append, List.sum_append, ih]
    simp only [List.map_cons, List.map_nil, List.sum_cons, List.sum_nil]
    push_cast
    split_ifs <;> omega

lemma counts_sum (idxs : List ℤ) (n : ℕ)
    (h : ∀ b ∈ idxs, b = -1 ∨ (0 ≤ b ∧ b < (n : ℤ))) :
    ((List.range n).map (fun i : ℕ => idxs.count (i : ℤ))).sum =
      (idxs.filter (fun b => b ≠ -1)).length := by
  induction idxs with
  | nil => simp
  | cons b t ih =>
    have hb := h b (List.mem_cons_self _ _)
    have ht := ih (fun x hx => h x (List.mem_cons_of_mem _ hx))
    have hmap : (List.range n).map (fun i : ℕ => (b :: t).count (i : ℤ)) =
        (List.range n).map
          (fun i : ℕ => t.count (i : ℤ) + (if b = (i : ℤ) then 1 else 0)) := by
      apply List.map_congr_left
      intro i _
      rw [List.count_cons]
      by_cases hbi : b = (i : ℤ) <;> simp [beq_iff_eq, hbi]
    rw [hmap, sum_map_add_nat, ht, sum_indicator, List.filter_cons]
    rcases hb with hb | hb
    · subst hb
      norm_num
    · have hne : ¬ (b = -1) := by omega
      rw [if_pos hb, if_pos (by simpa using hne)]
      simp

/-- C4: the per-bin tally of `add_colored_points_layer` lists every bin
index `0..n-1` (count 0 included), and the counts sum to the number of
points whose assignment is not the sentinel -1, for any assignment array
whose entries are either -1 or a valid bin index. -/
theorem bucket_counts_complete (nBands : ℕ) (idxs : List ℤ)
    (h : ∀ b ∈ idxs, b = -1 ∨ (0 ≤ b ∧ b < (nBands : ℤ))) :
    (bucket_counts nBands idxs).map Prod.fst = List.range nBands ∧
    ((bucket_counts nBands idxs).map Prod.snd).sum =
      (idxs.filter (fun b => b ≠ -1)).length := by
  constructor
  · rw [bucket_counts, List.map_map,
      show (Prod.fst ∘ fun i : ℕ => (i, idxs.count (i : ℤ))) = id from rfl, List.map_id]
  · rw [bucket_counts, List.map_map,
      show (Prod.snd ∘ fun i : ℕ => (i, idxs.count (i : ℤ))) =
        (fun i : ℕ => idxs.count (i : ℤ)) from rfl]
    exact counts_sum idxs nBands h

/-- Witness for `bucket_counts_complete` over 3 bins with assignments
[-1, 0, 2, 0]. -/
theorem bucket_counts_complete_witness :
    (bucket_counts 3 [-1, 0, 2, 0]).map Prod.fst = List.range 3 ∧
    ((bucket_counts 3 [-1, 0, 2, 0]).map Prod.snd).sum =
      (([-1, 0, 2, 0] : List ℤ).filter (fun b => b ≠ -1)).length :=
  bucket_counts_complete 3 [-1, 0, 2, 0] (by decide)

/- ----- C5 and C10: parse_radii_input ----- -/

lemma pyRound_nonneg {q : ℚ} (hq : 0 ≤ q) : 0 ≤ pyRound q := by
  have h0 : (0 : ℤ) ≤ ⌊q⌋ := Int.floor_nonneg.mpr hq
  unfold pyRound
  split_ifs <;> omega

lemma abs_pyRound_sub_le (q : ℚ) : |(pyRound q : ℚ) - q| ≤ 1 / 2 := by
  have h1 : (⌊q⌋ : ℚ) ≤ q := Int.floor_le q
  have h2 : q < ⌊q⌋ + 1 := Int.lt_floor_add_one q
  unfold pyRound
  split_ifs with hc1 hc2 hc3 <;>
    · rw [abs_le]
      push_cast
      constructor <;> linarith

lemma validRadii_append (a b : List Token) :
    validRadii (a ++ b) = validRadii a ++ validRadii b := by
  induction a with
  | nil => rfl
  | cons t ts ih =>
    cases t with
    | num q => by_cases h : 0 ≤ q <;> simp [validRadii, h, ih]
    | empty => simpa [validRadii] using ih
    | invalid => simpa [validRadii] using ih
    | nan => simpa [validRadii] using ih
    | ninf => simpa [validRadii] using ih
    | pinf => simpa [validRadii] using ih

lemma validRadii_nonneg (toks : List Token) : ∀ x ∈ validRadii toks, 0 ≤ x := by
  induction toks with
  | nil => simp [validRadii]
  | cons t ts ih =>
    cases t with
    | num q =>
      by_cases h : 0 ≤ q
      · simp only [validRadii, if_pos h]
        intro x hx
        rcases List.mem_cons.mp hx with hx | hx
        · exact hx ▸ pyRound_nonneg h
        · exact ih x hx
      · simpa [validRadii, h] using ih
    | empty => simpa [validRadii] using ih
    | invalid => simpa [validRadii] using ih
    | nan => simpa [validRadii] using ih
    | ninf => simpa [validRadii] using ih
    | pinf => simpa [validRadii] using ih

/-- C5: `parse_radii_input` returns the default radius set
{10000, 20000, 30000} exactly on the fallback branch — when no token
survives as a valid radius — and otherwise returns exactly the surviving
valid values (invalid tokens silently dropped), as a set; it never raises
to the caller (it is total). -/
theorem parse_radii_fallback (toks : List Token) :
    (validRadii toks = [] → parse_radii_input toks = [10000, 20000, 30000]) ∧
    (validRadii toks ≠ [] →
      ∀ x : ℤ, x ∈ parse_radii_input toks ↔ x ∈ validRadii toks) := by
  constructor
  · intro h
    simp [parse_radii_input, h]
  · intro h x
    have hne : ((validRadii toks).dedup).insertionSort (· ≤ ·) ≠ [] := by
      intro h0
      have hp := List.perm_insertionSort (· ≤ ·) ((validRadii toks).dedup)
      rw [h0] at hp
      exact h ((List.dedup_eq_nil _).mp hp.symm.eq_nil)
    simp only [parse_radii_input, if_neg hne]
    rw [List.mem_insertionSort, List.mem_dedup]

/-- Witness for `parse_radii_fallback`: a fully-invalid input falls back
to the default, and a single valid token is kept. -/
theorem parse_radii_fallback_witness :
    parse_radii_input [Token.invalid, Token.nan] = [10000, 20000, 30000] ∧
    ((5000 : ℤ) ∈ parse_radii_input [Token.num 5000] ↔
      (5000 : ℤ) ∈ validRadii [Token.num 5000]) :=
  ⟨(parse_radii_fallback [Token.invalid, Token.nan]).1 rfl,
   (parse_radii_fallback [Token.num 5000]).2 (by norm_num [validRadii]) 5000⟩

/-- C10: the list returned by `parse_radii_input` is strictly ascending
and non-negative (duplicates collapsed by `set`), a token parsing to a
negative number is silently dropped, and `int(round(val))` rounds to a
nearest integer (distance at most 1/2). -/
theorem parse_radii_invariant (toks : List Token) :
    List.Sorted (· < ·) (parse_radii_input toks) ∧
    (∀ x ∈ parse_radii_input toks, 0 ≤ x) ∧
    (∀ q : ℚ, q < 0 → ∀ pre post : List Token,
       parse_radii_input (pre ++ Token.num q :: post) = parse_radii_input (pre ++ post)) ∧
    (∀ q : ℚ, |(pyRound q : ℚ) - q| ≤ 1 / 2) := by
  refine ⟨?_, ?_, ?_, fun q => abs_pyRound_sub_le q⟩
  · simp only [parse_radii_input]
    split_ifs with h
    · decide
    · have hs : List.Sorted (· ≤ ·) (((validRadii toks).dedup).insertionSort (· ≤ ·)) :=
        List.sorted_insertionSort _ _
      have hnd : (((validRadii toks).dedup).insertionSort (· ≤ ·)).Nodup :=
        (List.perm_insertionSort _ _).nodup_iff.mpr (List.nodup_dedup _)
      exact (hs.and hnd).imp (fun hab => lt_of_le_of_ne hab.1 hab.2)
  · intro x hx
    simp only [parse_radii_input] at hx
    split_ifs at hx with h
    · simp at hx
      rcases hx with hx | hx | hx <;> omega
    · rw [List.mem_insertionSort, List.mem_dedup] at hx
      exact validRadii_nonneg toks x hx
  · intro q hq pre post
    have hv : validRadii (pre ++ Token.num q :: post) = validRadii (pre ++ post) := by
      rw [validRadii_append, validRadii_append]
      congr 1
      simp [validRadii, not_le.mpr hq]
    simp only [parse_radii_input, hv]

/-- Witness for `parse_radii_invariant` on concrete inputs. -/
theorem parse_radii_invariant_witness :
    List.Sorted (· < ·) (parse_radii_input [Token.invalid]) ∧
    (0 : ℤ) ≤ 10000 ∧
    parse_radii_input [Token.num (-1)] = parse_radii_input [] ∧
    |(pyRound 5 : ℚ) - 5| ≤ 1 / 2 :=
  ⟨(parse_radii_invariant [Token.invalid]).1,
   (parse_radii_invariant [Token.invalid]).2.1 10000 (by decide),
   (parse_radii_invariant [Token.invalid]).2.2.1 (-1) (by norm_num) [] [],
   (parse_radii_invariant [Token.invalid]).2.2.2 5⟩

/- ----- C6, C7, C8: haversine ----- -/

lemma sin_sq_swap (x y : ℝ) : Real.sin ((x - y) / 2) ^ 2 = Real.sin ((y - x) / 2) ^ 2 := by
  rw [show (x - y) / 2 = -((y - x) / 2) by ring, Real.sin_neg, neg_sq]

lemma hav_a_symm (lat1 lon1 lat2 lon2 : ℝ) :
    hav_a lat1 lon1 lat2 lon2 = hav_a lat2 lon2 lat1 lon1 := by
  rw [hav_a, hav_a, sin_sq_swap (radians lat2) (radians lat1),
    sin_sq_swap (radians lon2) (radians lon1), mul_comm (Real.cos (radians lat1))]

/-- C8: the haversine distance from any point to itself is exactly 0
(both for the scalar core and for a one-point array). -/
theorem haversine_self (lat lon : ℝ) :
    haversine lat lon lat lon = 0 ∧
    haversine_vectorized lat lon [(lat, lon)] = [0] := by
  have ha : hav_a lat lon lat lon = 0 := by
    simp [hav_a]
  have h : haversine lat lon lat lon = 0 := by
    rw [haversine, ha, Real.sqrt_zero,
      show min (1 : ℝ) 0 = 0 from min_eq_right zero_le_one, Real.arcsin_zero]
    ring
  exact ⟨h, by simp [haversine_vectorized, h]⟩

/-- C7: the haversine distance is exactly symmetric — swapping the
reference point and the target point leaves the computed distance
unchanged (hence also within any floating-point tolerance). -/
theorem haversine_symm (lat1 lon1 lat2 lon2 : ℝ) :
    haversine lat1 lon1 lat2 lon2 = haversine lat2 lon2 lat1 lon1 ∧
    haversine_vectorized lat1 lon1 [(lat2, lon2)] =
      haversine_vectorized lat2 lon2 [(lat1, lon1)] := by
  have h : haversine lat1 lon1 lat2 lon2 = haversine lat2 lon2 lat1 lon1 := by
    rw [haversine, haversine, hav_a_symm]
  exact ⟨h, by simp [haversine_vectorized, h]⟩

/-- C6: every distance produced by `haversine_vectorized` is non-negative,
for arbitrary (also out-of-range) coordinates, and the `min(1, sqrt(a))`
clamp keeps the argument of `asin` inside [0, 1] (the NaN-free domain of
`asin`). -/
theorem haversine_nonneg (lat1 lon1 : ℝ) (pts : List (ℝ × ℝ)) :
    (∀ d ∈ haversine_vectorized lat1 lon1 pts, 0 ≤ d) ∧
    ∀ lat2 lon2 : ℝ,
      min 1 (Real.sqrt (hav_a lat1 lon1 lat2 lon2)) ∈ Set.Icc (0 : ℝ) 1 := by
  have key : ∀ lat2 lon2 : ℝ, 0 ≤ haversine lat1 lon1 lat2 lon2 := by
    intro lat2 lon2
    have h0 : 0 ≤ min 1 (Real.sqrt (hav_a lat1 lon1 lat2 lon2)) :=
      le_min zero_le_one (Real.sqrt_nonneg _)
    have h1 : 0 ≤ Real.arcsin (min 1 (Real.sqrt (hav_a lat1 lon1 lat2 lon2))) :=
      Real.arcsin_nonneg.mpr h0
    rw [haversine]
    exact mul_nonneg (by norm_num) (mul_nonneg (by norm_num) h1)
  constructor
  · intro d hd
    rw [haversine_vectorized] at hd
    obtain ⟨p, _, rfl⟩ := List.mem_map.mp hd
    exact key p.1 p.2
  · intro lat2 lon2
    exact ⟨le_min zero_le_one (Real.sqrt_nonneg _), min_le_left _ _⟩

/-- Witness for `haversine_nonneg` at the reference point (0,0) and the
one-point array [(0,0)]. -/
theorem haversine_nonneg_witness :
    0 ≤ haversine 0 0 0 0 ∧
    min 1 (Real.sqrt (hav_a 0 0 0 0)) ∈ Set.Icc (0 : ℝ) 1 :=
  ⟨(haversine_nonneg 0 0 [(0, 0)]).1 (haversine 0 0 0 0)
     (by simp [haversine_vectorized]),
   (haversine_nonneg 0 0 []).2 0 0⟩

/- ----- C9: labels ----- -/

lemma pyRound_intCast (z : ℤ) : pyRound (z : ℚ) = z := by
  unfold pyRound
  rw [Int.floor_intCast, sub_self, if_pos (by norm_num)]

lemma fmt2_eval (q : ℚ) (c : ℤ) (h : q * 100 = (c : ℚ)) :
    fmt2 q = (if c < 0 then "-" else "") ++ toString (c.natAbs / 100) ++ "." ++
      (if c.natAbs % 100 < 10 then "0" ++ toString (c.natAbs % 100)
        else toString (c.natAbs % 100)) := by
  simp only [fmt2]
  rw [h, pyRound_intCast]

lemma foldl_append_map {α β : Type} (xs : List α) (f : α → β) (acc : List β) :
    xs.foldl (fun l x => l ++ [f x]) acc = acc ++ xs.map f := by
  induction xs generalizing acc with
  | nil => simp
  | cons x xs ih => simp [List.foldl_cons, ih]

lemma bucket_labels_eq_map (bins : List Bin) :
    bucket_labels_from_bins bins = bins.map label_of_band_spec :=
  foldl_append_map bins label_of_band_spec []

/-- C9: `bucket_labels_from_bins` produces one label per bin in bin order;
a finite bin [low, high) is rendered as the two bounds with two decimals
separated by an en-dash followed by " km", and the final unbounded bin as
">" followed by its low bound; on the default bins this gives
"0.00–10.00 km", "10.00–20.00 km", "20.00–30.00 km", ">30.00 km". -/
theorem bucket_labels_format :
    (∀ bins : List Bin, bucket_labels_from_bins bins = bins.map label_of_band_spec) ∧
    (∀ bins : List Bin, (bucket_labels_from_bins bins).length = bins.length) ∧
    bucket_labels_from_bins (make_bins_from_radii [10000, 20000, 30000]) =
      ["0.00–10.00 km", "10.00–20.00 km", "20.00–30.00 km", ">30.00 km"] := by
  refine ⟨bucket_labels_eq_map,
    fun bins => by rw [bucket_labels_eq_map, List.length_map], ?_⟩
  rw [bins_default_eval, bucket_labels_eq_map]
  have f0 : fmt2 0 = "0.00" := by rw [fmt2_eval 0 0 (by norm_num)]; rfl
  have f10 : fmt2 10 = "10.00" := by rw [fmt2_eval 10 1000 (by norm_num)]; rfl
  have f20 : fmt2 20 = "20.00" := by rw [fmt2_eval 20 2000 (by norm_num)]; rfl
  have f30 : fmt2 30 = "30.00" := by rw [fmt2_eval 30 3000 (by norm_num)]; rfl
  simp only [List.map_cons, List.map_nil, label_of_band_spec, f0, f10, f20, f30]
  rfl
